import Mathlib

/-!
Verification of the batch-query orchestrator (`executeBatchedQuerySmart` and its
helpers in `src/unnamed/part_001`, plus the standalone
`executeBatchedQueryParallel` from `src/parallel processing/performance-test.ts`).

The embedding models the asynchronous execution as a deterministic trace
semantics: the caller-supplied lookup (`queryFn`) is modelled by

* a result function `f : List α → Except ε (List β)` giving the eventual
  settlement of each invocation (`Except.error` models a rejected promise), and
* a duration function `dur : Nat → Nat` giving the running time of the
  invocation of the chunk with a given definition index, so that completion
  order is an arbitrary parameter of the model.

Every invocation of the lookup is recorded as an `Invocation` carrying its
chunk index, dispatch time, settle time and argument.  Sequential execution
dispatches invocation `i+1` at the settle time of invocation `i`;
`Promise.all`-style execution dispatches a whole group at one instant and joins
at the maximum settle time, rejecting at the earliest rejecting settlement.
A `for` loop with a non-positive step does not terminate in the source
language; such runs are modelled by `Option.none`.
-/

namespace BatchQuery

/-- Execution strategy option of `executeBatchedQuerySmart`
(the TypeScript union `'auto' | 'parallel' | 'sequential'`). -/
inductive Strategy where
  | auto
  | parallel
  | sequential
deriving DecidableEq, Repr

/-- The optional `options` record of `executeBatchedQuerySmart`; every field is
optional exactly as in the source. -/
structure Options where
  batchSize : Option Nat := none
  maxConcurrent : Option Nat := none
  strategy : Option Strategy := none
deriving DecidableEq, Repr

/-- `const BATCH_SIZE = 2000` (SQL Server parameter-count headroom). -/
def BATCH_SIZE : Nat := 2000

/-- `const DEFAULT_MAX_POOL_SIZE = 10` (default Knex mssql pool max size). -/
def DEFAULT_MAX_POOL_SIZE : Nat := 10

/-- One recorded invocation of the lookup function: the definition index of the
chunk passed, the dispatch time, the settle time, and the argument. -/
structure Invocation (α : Type) where
  index : Nat
  start : Nat
  stop : Nat
  arg : List α
deriving DecidableEq, Repr

variable {α β ε : Type}

/-- The batching loop body of `executeBatchedQuerySmart`
(`for (let i = 0; i < ids.length; i += batchSize) batches.push(ids.slice(i, i + batchSize))`),
written with explicit fuel so that it is structurally recursive.  Callers pass
`ids.length` as fuel, which is enough for every positive `batchSize`; the
non-terminating `batchSize = 0` case is modelled by `splitIntoBatches`. -/
def buildBatchesGo (batchSize : Nat) : Nat → List α → List (List α)
  | _, [] => []
  | 0, _ :: _ => []
  | fuel + 1, a :: l =>
    (a :: l).take batchSize :: buildBatchesGo batchSize fuel ((a :: l).drop batchSize)

/-- The list `batches` built by the batching loop of `executeBatchedQuerySmart`. -/
def buildBatches (batchSize : Nat) (ids : List α) : List (List α) :=
  buildBatchesGo batchSize ids.length ids

/-- The batching loop including its non-termination behaviour: with a zero step
and a non-empty input the loop never terminates (`none`); otherwise it yields
`buildBatches`. -/
def splitIntoBatches (batchSize : Nat) (ids : List α) : Option (List (List α)) :=
  match batchSize, ids with
  | 0, [] => some []
  | 0, _ :: _ => none
  | b + 1, l => some (buildBatches (b + 1) l)

/-- Trace semantics of `executeSequential`'s loop: starting with chunk index
`i` at time `t`, each chunk is awaited before the next is dispatched, results
are pushed in order, and a rejection aborts the loop immediately (later chunks
are never invoked). -/
def seqGo (f : List α → Except ε (List β)) (dur : Nat → Nat) :
    Nat → Nat → List (List α) → List (Invocation α) × Except ε (List β)
  | _, _, [] => ([], Except.ok [])
  | i, t, b :: rest =>
    let inv : Invocation α := ⟨i, t, t + dur i, b⟩
    match f b with
    | Except.error e => ([inv], Except.error e)
    | Except.ok out =>
      let r := seqGo f dur (i + 1) (t + dur i) rest
      (inv :: r.1,
        match r.2 with
        | Except.error e => Except.error e
        | Except.ok outs => Except.ok (out ++ outs))

/-- `executeSequential` (src/unnamed/part_001 lines 98–108): one chunk at a
time, concatenating each chunk's results, failing on the first rejection. -/
def executeSequential (f : List α → Except ε (List β)) (dur : Nat → Nat)
    (batches : List (List α)) : List (Invocation α) × Except ε (List β) :=
  seqGo f dur 0 0 batches

/-- The invocations dispatched by a `Promise.all(batches.map(queryFn))`: every
chunk is dispatched at the same instant `t0`, chunk indices counting up from
`i0`. -/
def parallelInvs (dur : Nat → Nat) (i0 t0 : Nat) : List (List α) → List (Invocation α)
  | [] => []
  | b :: rest => ⟨i0, t0, t0 + dur i0, b⟩ :: parallelInvs dur (i0 + 1) t0 rest

/-- The indices (from `i0`) and errors of the chunks whose lookup rejects. -/
def rejections (f : List α → Except ε (List β)) (i0 : Nat) : List (List α) → List (Nat × ε)
  | [] => []
  | b :: rest =>
    match f b with
    | Except.error e => (i0, e) :: rejections f (i0 + 1) rest
    | Except.ok _ => rejections f (i0 + 1) rest

/-- Among simultaneously dispatched rejecting invocations, the one that settles
first (smallest duration, earlier index on ties) — the rejection observed by
`Promise.all`. -/
def earliestRejection (dur : Nat → Nat) : List (Nat × ε) → Option (Nat × ε)
  | [] => none
  | r :: rs =>
    match earliestRejection dur rs with
    | none => some r
    | some r2 => if dur r2.1 < dur r.1 then some r2 else some r

/-- The resolved value of `Promise.all(batches.map(queryFn))` followed by
`.flat()`: per-chunk results concatenated in chunk order (only reached when no
chunk rejects). -/
def collectOks (f : List α → Except ε (List β)) : List (List α) → Except ε (List β)
  | [] => Except.ok []
  | b :: rest =>
    match f b, collectOks f rest with
    | Except.error e, _ => Except.error e
    | Except.ok _, Except.error e => Except.error e
    | Except.ok out, Except.ok outs => Except.ok (out ++ outs)

/-- One `Promise.all(group.map(queryFn))` join, dispatched at `t0` with chunk
indices from `i0`: all invocations of the group are dispatched, and the join
rejects with the earliest-settling rejection or resolves with the flattened
results. -/
def promiseAllStep (f : List α → Except ε (List β)) (dur : Nat → Nat)
    (i0 t0 : Nat) (batches : List (List α)) : List (Invocation α) × Except ε (List β) :=
  (parallelInvs dur i0 t0 batches,
    match earliestRejection dur (rejections f i0 batches) with
    | some r => Except.error r.2
    | none => collectOks f batches)

/-- `executeParallel` (src/unnamed/part_001 lines 87–93):
`Promise.all(batches.map(queryFn))` then `.flat()`. -/
def executeParallel (f : List α → Except ε (List β)) (dur : Nat → Nat)
    (batches : List (List α)) : List (Invocation α) × Except ε (List β) :=
  promiseAllStep f dur 0 0 batches

/-- Settle time of a group join that resolves: dispatch time plus the largest
duration among the group's invocations (indices `i0, …, i0 + len - 1`). -/
def groupJoin (dur : Nat → Nat) (i0 t0 len : Nat) : Nat :=
  t0 + ((List.range len).map fun j => dur (i0 + j)).foldr max 0

/-- Trace semantics of `executeChunkedParallel`'s loop: groups of `m` chunks,
each group dispatched concurrently at the join time of the previous group; a
rejected group join aborts the loop.  Fuel (`batches.length` at entry) makes
the recursion structural; it suffices for every positive `m`. -/
def chunkedGo (f : List α → Except ε (List β)) (dur : Nat → Nat) (m : Nat) :
    Nat → Nat → Nat → List (List α) → List (Invocation α) × Except ε (List β)
  | _, _, _, [] => ([], Except.ok [])
  | 0, _, _, _ :: _ => ([], Except.ok [])
  | fuel + 1, i0, t0, b :: bs =>
    let group := (b :: bs).take m
    let rest := (b :: bs).drop m
    let step := promiseAllStep f dur i0 t0 group
    match step.2 with
    | Except.error e => (step.1, Except.error e)
    | Except.ok outs =>
      let r := chunkedGo f dur m fuel (i0 + group.length) (groupJoin dur i0 t0 group.length) rest
      (step.1 ++ r.1,
        match r.2 with
        | Except.error e => Except.error e
        | Except.ok outs2 => Except.ok (outs ++ outs2))

/-- `executeChunkedParallel` (src/unnamed/part_001 lines 114–128): process the
batch list in slices of `maxConcurrent`, one `Promise.all` join per slice.
With `maxConcurrent = 0` the slicing loop has a zero step, so with a non-empty
batch list it never terminates (`none`). -/
def executeChunkedParallel (f : List α → Except ε (List β)) (dur : Nat → Nat)
    (batches : List (List α)) (maxConcurrent : Nat) :
    Option (List (Invocation α) × Except ε (List β)) :=
  match maxConcurrent with
  | m + 1 => some (chunkedGo f dur (m + 1) batches.length 0 0 batches)
  | 0 =>
    match batches with
    | [] => some ([], Except.ok [])
    | _ :: _ => none

/-- Strategy resolution of `executeBatchedQuerySmart` (lines 60–68): `auto`
becomes `parallel` when the batch count fits under `maxConcurrent` and
`sequential` otherwise; explicit strategies pass through unchanged. -/
def resolveStrategy (strategy : Strategy) (numBatches maxConcurrent : Nat) : Strategy :=
  if strategy = Strategy.auto then
    if numBatches ≤ maxConcurrent then Strategy.parallel else Strategy.sequential
  else strategy

/-- The effective `batchSize` after the destructuring defaults
(`const { batchSize = BATCH_SIZE } = options || {}`). -/
def effBatchSize (options : Option Options) : Nat :=
  ((options.getD {}).batchSize).getD BATCH_SIZE

/-- The effective `maxConcurrent` after the destructuring defaults. -/
def effMaxConcurrent (options : Option Options) : Nat :=
  ((options.getD {}).maxConcurrent).getD DEFAULT_MAX_POOL_SIZE

/-- The effective `strategy` after the destructuring defaults. -/
def effStrategy (options : Option Options) : Strategy :=
  ((options.getD {}).strategy).getD Strategy.auto

/-- `executeBatchedQuerySmart` (src/unnamed/part_001 lines 29–82): early return
on empty input, direct single invocation when the input fits in one batch,
otherwise split into batches, resolve the strategy and dispatch.  The `auto`
case of the final match is the `default:` arm of the source's `switch`, which
calls `executeChunkedParallel`.  `none` models a non-terminating run. -/
def executeBatchedQuerySmart (ids : List α) (queryFn : List α → Except ε (List β))
    (dur : Nat → Nat) (options : Option Options) :
    Option (List (Invocation α) × Except ε (List β)) :=
  let batchSize := effBatchSize options
  let maxConcurrent := effMaxConcurrent options
  let strategy := effStrategy options
  if ids.length = 0 then some ([], Except.ok [])
  else if ids.length ≤ batchSize then some ([⟨0, 0, dur 0, ids⟩], queryFn ids)
  else
    match splitIntoBatches batchSize ids with
    | none => none
    | some batches =>
      match resolveStrategy strategy batches.length maxConcurrent with
      | Strategy.parallel => some (executeParallel queryFn dur batches)
      | Strategy.sequential => some (executeSequential queryFn dur batches)
      | Strategy.auto => executeChunkedParallel queryFn dur batches maxConcurrent

/-- `executeBatchedQueryParallel` (src/unnamed/part_001 lines 133–138):
the smart orchestrator with the strategy forced to `parallel`. -/
def executeBatchedQueryParallel (ids : List α) (queryFn : List α → Except ε (List β))
    (dur : Nat → Nat) : Option (List (Invocation α) × Except ε (List β)) :=
  executeBatchedQuerySmart ids queryFn dur (some { strategy := some Strategy.parallel })

/-- `executeBatchedQuerySequential` (src/unnamed/part_001 lines 143–148):
the smart orchestrator with the strategy forced to `sequential`. -/
def executeBatchedQuerySequential (ids : List α) (queryFn : List α → Except ε (List β))
    (dur : Nat → Nat) : Option (List (Invocation α) × Except ε (List β)) :=
  executeBatchedQuerySmart ids queryFn dur (some { strategy := some Strategy.sequential })

/-- The standalone `executeBatchedQueryParallel` of
`src/parallel processing/performance-test.ts` (lines 20–39): early return on
empty input, direct invocation up to `BATCH_SIZE` items, otherwise slice into
`BATCH_SIZE`-sized batches and `Promise.all` over them. -/
def perfTestExecuteBatchedQueryParallel (ids : List α)
    (queryFn : List α → Except ε (List β)) (dur : Nat → Nat) :
    Option (List (Invocation α) × Except ε (List β)) :=
  if ids.length = 0 then some ([], Except.ok [])
  else if ids.length ≤ BATCH_SIZE then some ([⟨0, 0, dur 0, ids⟩], queryFn ids)
  else
    match splitIntoBatches BATCH_SIZE ids with
    | none => none
    | some batches => some (executeParallel queryFn dur batches)

/-- Number of invocations of a trace that are dispatched but not yet settled at
time `t`. -/
def inFlightCount (invs : List (Invocation α)) (t : Nat) : Nat :=
  invs.countP fun inv => decide (inv.start ≤ t ∧ t < inv.stop)

lemma buildBatchesGo_nil (S fuel : Nat) : buildBatchesGo S fuel ([] : List α) = [] := by
  cases fuel <;> rfl

lemma buildBatchesGo_flatten (S : Nat) (hS : 0 < S) :
    ∀ (fuel : Nat) (ids : List α), ids.length ≤ fuel →
      (buildBatchesGo S fuel ids).flatten = ids := by
  intro fuel
  induction fuel with
  | zero =>
    intro ids h
    have hnil : ids = [] := List.length_eq_zero.mp (Nat.le_zero.mp h)
    subst hnil
    rfl
  | succ n ih =>
    intro ids h
    cases ids with
    | nil => rfl
    | cons a l =>
      show ((a :: l).take S :: buildBatchesGo S n ((a :: l).drop S)).flatten = a :: l
      rw [List.flatten_cons, ih ((a :: l).drop S)]
      · exact List.take_append_drop S (a :: l)
      · rw [List.length_drop]
        simp only [List.length_cons] at h ⊢
        omega

lemma buildBatchesGo_length (S : Nat) (hS : 0 < S) :
    ∀ (fuel : Nat) (ids : List α), ids.length ≤ fuel →
      (buildBatchesGo S fuel ids).length = (ids.length + S - 1) / S := by
  intro fuel
  induction fuel with
  | zero =>
    intro ids h
    have hnil : ids = [] := List.length_eq_zero.mp (Nat.le_zero.mp h)
    subst hnil
    simp [buildBatchesGo_nil, Nat.div_eq_of_lt (show S - 1 < S by omega)]
  | succ n ih =>
    intro ids h
    cases ids with
    | nil => simp [buildBatchesGo_nil, Nat.div_eq_of_lt (show S - 1 < S by omega)]
    | cons a l =>
      show ((a :: l).take S :: buildBatchesGo S n ((a :: l).drop S)).length
        = ((a :: l).length + S - 1) / S
      rw [List.length_cons, ih ((a :: l).drop S)
        (by rw [List.length_drop]; simp only [List.length_cons] at h ⊢; omega)]
      rw [List.length_drop, List.length_cons]
      rcases le_or_lt S (l.length + 1) with hle | hlt
      · have h1 : l.length + 1 - S + S - 1 = l.length := by omega
        have h2 : l.length + 1 + S - 1 = l.length + S := by omega
        rw [h1, h2, Nat.add_div_right _ hS]
      · have h1 : l.length + 1 - S = 0 := by omega
        have h2 : (l.length + 1 + S - 1) / S = 1 :=
          Nat.div_eq_of_lt_le (by omega) (by omega)
        rw [h1, h2, Nat.div_eq_of_lt (show 0 + S - 1 < S by omega)]

lemma buildBatchesGo_ne_nil (S fuel : Nat) (a : α) (l : List α)
    (h : (a :: l).length ≤ fuel) : buildBatchesGo S fuel (a :: l) ≠ [] := by
  cases fuel with
  | zero => simp at h
  | succ n =>
    show (a :: l).take S :: buildBatchesGo S n ((a :: l).drop S) ≠ []
    exact List.cons_ne_nil _ _

lemma buildBatchesGo_dropLast (S : Nat) (hS : 0 < S) :
    ∀ (fuel : Nat) (ids : List α), ids.length ≤ fuel →
      ∀ c ∈ (buildBatchesGo S fuel ids).dropLast, c.length = S := by
  intro fuel
  induction fuel with
  | zero =>
    intro ids h
    have hnil : ids = [] := List.length_eq_zero.mp (Nat.le_zero.mp h)
    subst hnil
    simp [buildBatchesGo_nil]
  | succ n ih =>
    intro ids h
    cases ids with
    | nil => simp [buildBatchesGo_nil]
    | cons a l =>
      intro c hc
      have hdl : (a :: l).length ≤ n + 1 := h
      cases hdrop : (a :: l).drop S with
      | nil =>
        rw [show buildBatchesGo S (n + 1) (a :: l)
            = (a :: l).take S :: buildBatchesGo S n ((a :: l).drop S) from rfl,
          hdrop, buildBatchesGo_nil] at hc
        simp at hc
      | cons b l2 =>
        have hrest : (a :: l).drop S ≠ [] := by rw [hdrop]; simp
        have hSlt : S < (a :: l).length := by
          by_contra hcon
          exact hrest (List.drop_eq_nil_of_le (by omega))
        have hne : buildBatchesGo S n ((a :: l).drop S) ≠ [] := by
          rw [hdrop]
          exact buildBatchesGo_ne_nil S n b l2
            (by rw [← hdrop, List.length_drop]; simp only [List.length_cons] at hdl ⊢; omega)
        rw [show buildBatchesGo S (n + 1) (a :: l)
            = (a :: l).take S :: buildBatchesGo S n ((a :: l).drop S) from rfl,
          List.dropLast_cons_of_ne_nil hne] at hc
        rcases List.mem_cons.mp hc with hcEq | hcMem
        · rw [hcEq, List.length_take]
          omega
        · exact ih ((a :: l).drop S)
            (by rw [List.length_drop]; simp only [List.length_cons] at hdl ⊢; omega) c hcMem

lemma buildBatches_flatten (S : Nat) (hS : 0 < S) (ids : List α) :
    (buildBatches S ids).flatten = ids :=
  buildBatchesGo_flatten S hS ids.length ids Nat.le.refl

lemma buildBatches_length (S : Nat) (hS : 0 < S) (ids : List α) :
    (buildBatches S ids).length = (ids.length + S - 1) / S :=
  buildBatchesGo_length S hS ids.length ids Nat.le.refl

lemma buildBatches_dropLast (S : Nat) (hS : 0 < S) (ids : List α) :
    ∀ c ∈ (buildBatches S ids).dropLast, c.length = S :=
  buildBatchesGo_dropLast S hS ids.length ids Nat.le.refl

lemma buildBatches_singleton (S : Nat) (ids : List α) (h0 : ids ≠ [])
    (hle : ids.length ≤ S) : buildBatches S ids = [ids] := by
  cases ids with
  | nil => exact absurd rfl h0
  | cons a l =>
    show buildBatchesGo S (a :: l).length (a :: l) = [a :: l]
    rw [show (a :: l).length = l.length + 1 from rfl]
    show (a :: l).take S :: buildBatchesGo S l.length ((a :: l).drop S) = [a :: l]
    rw [List.take_of_length_le hle, List.drop_eq_nil_of_le hle, buildBatchesGo_nil]

lemma buildBatches_len_le_one (S : Nat) (ids : List α) (hle : ids.length ≤ S) :
    (buildBatches S ids).length ≤ 1 := by
  cases hids : ids with
  | nil => simp [buildBatches, buildBatchesGo_nil]
  | cons a l =>
    rw [← hids, buildBatches_singleton S ids (by rw [hids]; simp) hle]
    simp

lemma split_pos (S : Nat) (hS : 0 < S) (ids : List α) :
    splitIntoBatches S ids = some (buildBatches S ids) := by
  cases S with
  | zero => omega
  | succ n => rfl

lemma resolveStrategy_cases (s : Strategy) (numBatches maxConcurrent : Nat) :
    resolveStrategy s numBatches maxConcurrent = Strategy.parallel ∨
      resolveStrategy s numBatches maxConcurrent = Strategy.sequential := by
  cases s with
  | auto =>
    unfold resolveStrategy
    rw [if_pos rfl]
    by_cases h : numBatches ≤ maxConcurrent
    · left
      rw [if_pos h]
    · right
      rw [if_neg h]
  | parallel => left; rfl
  | sequential => right; rfl

lemma execute_not_fast (ids : List α) (f : List α → Except ε (List β)) (dur : Nat → Nat)
    (opts : Option Options) (hb : 0 < effBatchSize opts)
    (hlen : effBatchSize opts < ids.length) :
    executeBatchedQuerySmart ids f dur opts =
      match resolveStrategy (effStrategy opts) (buildBatches (effBatchSize opts) ids).length
          (effMaxConcurrent opts) with
      | Strategy.parallel => some (executeParallel f dur (buildBatches (effBatchSize opts) ids))
      | Strategy.sequential => some (executeSequential f dur (buildBatches (effBatchSize opts) ids))
      | Strategy.auto =>
        executeChunkedParallel f dur (buildBatches (effBatchSize opts) ids)
          (effMaxConcurrent opts) := by
  have h1 : ¬ (ids.length = 0) := by omega
  have h2 : ¬ (ids.length ≤ effBatchSize opts) := by omega
  simp only [executeBatchedQuerySmart, if_neg h1, if_neg h2, split_pos _ hb]

lemma execute_auto_overflow (ids : List α) (f : List α → Except ε (List β)) (dur : Nat → Nat)
    (opts : Option Options) (hauto : effStrategy opts = Strategy.auto)
    (hb : 0 < effBatchSize opts) (hlen : effBatchSize opts < ids.length)
    (hover : effMaxConcurrent opts < (buildBatches (effBatchSize opts) ids).length) :
    executeBatchedQuerySmart ids f dur opts =
      some (executeSequential f dur (buildBatches (effBatchSize opts) ids)) := by
  rw [execute_not_fast ids f dur opts hb hlen, hauto]
  have hres : resolveStrategy Strategy.auto
      (buildBatches (effBatchSize opts) ids).length (effMaxConcurrent opts)
      = Strategy.sequential := by
    unfold resolveStrategy
    rw [if_pos rfl, if_neg (by omega)]
  rw [hres]

lemma collectOks_ok (g : List α → List β) :
    ∀ l : List (List α),
      collectOks (ε := ε) (fun b => Except.ok (g b)) l = Except.ok (l.map g).flatten := by
  intro l
  induction l with
  | nil => rfl
  | cons b rest ih =>
    simp only [collectOks, ih, List.map_cons, List.flatten_cons]

lemma rejections_ok (g : List α → List β) :
    ∀ (l : List (List α)) (i0 : Nat),
      rejections (ε := ε) (fun b => Except.ok (g b)) i0 l = [] := by
  intro l
  induction l with
  | nil => intro i0; rfl
  | cons b rest ih =>
    intro i0
    simp only [rejections, ih]

lemma promiseAllStep_ok (g : List α → List β) (dur : Nat → Nat) (i0 t0 : Nat)
    (l : List (List α)) :
    promiseAllStep (ε := ε) (fun b => Except.ok (g b)) dur i0 t0 l
      = (parallelInvs dur i0 t0 l, Except.ok (l.map g).flatten) := by
  unfold promiseAllStep
  rw [rejections_ok, collectOks_ok]
  rfl

lemma seqGo_ok (g : List α → List β) (dur : Nat → Nat) :
    ∀ (l : List (List α)) (i0 t0 : Nat),
      (seqGo (ε := ε) (fun b => Except.ok (g b)) dur i0 t0 l).2
        = Except.ok (l.map g).flatten := by
  intro l
  induction l with
  | nil => intro i0 t0; rfl
  | cons b rest ih =>
    intro i0 t0
    simp only [seqGo, ih, List.map_cons, List.flatten_cons]

lemma execute_ok_lookup (ids : List α) (g : List α → List β)
    (dur : Nat → Nat) (opts : Option Options) (hb : 0 < effBatchSize opts) :
    ∃ invs, executeBatchedQuerySmart (ε := ε) ids (fun b => Except.ok (g b)) dur opts
      = some (invs, Except.ok ((buildBatches (effBatchSize opts) ids).map g).flatten) := by
  by_cases h0 : ids.length = 0
  · refine ⟨[], ?_⟩
    have hnil : ids = [] := List.length_eq_zero.mp h0
    subst hnil
    rfl
  · by_cases hfast : ids.length ≤ effBatchSize opts
    · refine ⟨[⟨0, 0, dur 0, ids⟩], ?_⟩
      have hne : ids ≠ [] := fun hcon => h0 (by rw [hcon]; rfl)
      rw [buildBatches_singleton _ _ hne hfast]
      simp only [executeBatchedQuerySmart, if_neg h0, if_pos hfast, List.map_cons,
        List.map_nil, List.flatten_cons, List.flatten_nil, List.append_nil]
    · push_neg at hfast
      rcases resolveStrategy_cases (effStrategy opts)
          (buildBatches (effBatchSize opts) ids).length (effMaxConcurrent opts)
        with hres | hres
      · refine ⟨parallelInvs dur 0 0 (buildBatches (effBatchSize opts) ids), ?_⟩
        rw [execute_not_fast _ _ _ _ hb hfast]
        simp only [hres]
        unfold executeParallel
        rw [promiseAllStep_ok]
      · refine ⟨(seqGo (ε := ε) (fun b => Except.ok (g b)) dur 0 0
          (buildBatches (effBatchSize opts) ids)).1, ?_⟩
        rw [execute_not_fast _ _ _ _ hb hfast]
        simp only [hres]
        have hseq : executeSequential (ε := ε) (fun b => Except.ok (g b)) dur
            (buildBatches (effBatchSize opts) ids)
            = ((seqGo (ε := ε) (fun b => Except.ok (g b)) dur 0 0
                (buildBatches (effBatchSize opts) ids)).1,
              Except.ok (((buildBatches (effBatchSize opts) ids).map g).flatten)) := by
          rw [← seqGo_ok g dur (buildBatches (effBatchSize opts) ids) 0 0]
          rfl
        rw [hseq]

/-- C1: for every input sequence, every configuration (with a positive
effective batch size), every completion-order assignment `dur` and every
non-rejecting lookup `g`, the output of `executeBatchedQuerySmart` is the
concatenation of the per-chunk lookup results in chunk-definition order —
independently of `dur`, i.e. never in completion order. -/
theorem c1_output_in_definition_order (ids : List α) (g : List α → List β)
    (dur : Nat → Nat) (opts : Option Options) (hb : 0 < effBatchSize opts) :
    ∃ invs, executeBatchedQuerySmart (ε := ε) ids (fun b => Except.ok (g b)) dur opts
      = some (invs, Except.ok ((buildBatches (effBatchSize opts) ids).map g).flatten) :=
  execute_ok_lookup ids g dur opts hb

/-- Witness for C1 at a concrete input: three items, batch size one, default
strategy. -/
theorem c1_witness :
    0 < effBatchSize (some { batchSize := some 1 }) ∧
      ∃ invs, executeBatchedQuerySmart (ε := Nat) [1, 2, 3]
          (fun b => Except.ok (List.map (fun x => x + 10) b)) (fun _ => 1)
          (some { batchSize := some 1 })
        = some (invs, Except.ok ((buildBatches
            (effBatchSize (some { batchSize := some 1 })) [1, 2, 3]).map
              (List.map (fun x => x + 10))).flatten) :=
  ⟨by decide, c1_output_in_definition_order [1, 2, 3] (List.map (fun x => x + 10))
    (fun _ => 1) (some { batchSize := some 1 }) (by decide)⟩

/-- C3: with positive `batchSize` `S` and `N = ids.length > S`, the batching
step yields exactly `⌈N / S⌉` contiguous chunks, every chunk except possibly
the last has exactly `S` items, and concatenating the chunks in order
reproduces the input. -/
theorem c3_partition (S : Nat) (ids : List α) (hS : 0 < S) (hlen : S < ids.length) :
    ∃ chunks, splitIntoBatches S ids = some chunks ∧
      chunks.length = (ids.length + S - 1) / S ∧
      (∀ c ∈ chunks.dropLast, c.length = S) ∧
      chunks.flatten = ids :=
  ⟨buildBatches S ids, split_pos S hS ids, buildBatches_length S hS ids,
    buildBatches_dropLast S hS ids, buildBatches_flatten S hS ids⟩

/-- Witness for C3: five items split with batch size two into `[[1,2],[3,4],[5]]`. -/
theorem c3_witness :
    (0 < 2 ∧ 2 < ([1, 2, 3, 4, 5] : List Nat).length) ∧
      ∃ chunks, splitIntoBatches 2 [1, 2, 3, 4, 5] = some chunks ∧
        chunks.length = (([1, 2, 3, 4, 5] : List Nat).length + 2 - 1) / 2 ∧
        (∀ c ∈ chunks.dropLast, c.length = 2) ∧
        chunks.flatten = [1, 2, 3, 4, 5] :=
  ⟨by decide, c3_partition 2 [1, 2, 3, 4, 5] (by decide) (by decide)⟩

/-- C8: executing with the empty input sequence resolves to the empty output
sequence, with an empty invocation trace — the lookup is never invoked —
for every lookup, duration assignment and configuration. -/
theorem c8_empty_input (f : List α → Except ε (List β)) (dur : Nat → Nat)
    (opts : Option Options) :
    executeBatchedQuerySmart [] f dur opts = some ([], Except.ok []) :=
  rfl

/-- C10: the standalone `executeBatchedQueryParallel` of `performance-test.ts`
computes exactly the same runs (same traces, same results) as
`executeBatchedQuerySmart` with the strategy forced to `parallel` and the
default batch size — the composition exported by `part_001` as
`executeBatchedQueryParallel`. -/
theorem c10_perf_test_parallel_refinement (ids : List α)
    (f : List α → Except ε (List β)) (dur : Nat → Nat) :
    perfTestExecuteBatchedQueryParallel ids f dur = executeBatchedQueryParallel ids f dur :=
  rfl

/-- Counterexample to C7 as stated: on the empty input (whose length is at
most `batchSize`), `executeBatchedQuerySmart` returns the empty trace — the
lookup is invoked zero times, not exactly once. -/
theorem c7_counterexample :
    ([] : List Nat).length ≤ BATCH_SIZE ∧
      executeBatchedQuerySmart ([] : List Nat)
          (fun b => (Except.ok b : Except Nat (List Nat))) (fun _ => 1) none
        = some ([], Except.ok []) :=
  ⟨by decide, rfl⟩

lemma execute_fast (ids : List α) (f : List α → Except ε (List β))
    (dur : Nat → Nat) (opts : Option Options) (hne : ids ≠ [])
    (hlen : ids.length ≤ effBatchSize opts) :
    executeBatchedQuerySmart ids f dur opts = some ([⟨0, 0, dur 0, ids⟩], f ids) := by
  have h0 : ¬ (ids.length = 0) := fun hcon => hne (List.length_eq_zero.mp hcon)
  simp only [executeBatchedQuerySmart, if_neg h0, if_pos hlen]

/-- C7 amended: whenever the input is non-empty and `items.length ≤ batchSize`,
`executeBatchedQuerySmart` invokes the lookup exactly once, with the entire
input, regardless of strategy setting, and returns that single invocation's
result. -/
theorem c7_amended_fast_path (ids : List α) (f : List α → Except ε (List β))
    (dur : Nat → Nat) (opts : Option Options) (hne : ids ≠ [])
    (hlen : ids.length ≤ effBatchSize opts) :
    executeBatchedQuerySmart ids f dur opts = some ([⟨0, 0, dur 0, ids⟩], f ids) :=
  execute_fast ids f dur opts hne hlen

/-- Witness for the amended C7: a one-element input under the default
configuration, with the strategy forced to `sequential` to show the fast path
ignores the strategy setting. -/
theorem c7_amended_witness :
    (([5] : List Nat) ≠ [] ∧
      ([5] : List Nat).length ≤ effBatchSize (some { strategy := some Strategy.sequential })) ∧
      executeBatchedQuerySmart [5] (fun b => (Except.ok b : Except Nat (List Nat)))
          (fun _ => 1) (some { strategy := some Strategy.sequential })
        = some ([⟨0, 0, 1, [5]⟩], Except.ok [5]) :=
  ⟨⟨by decide, by decide⟩,
    c7_amended_fast_path [5] (fun b => Except.ok b) (fun _ => 1)
      (some { strategy := some Strategy.sequential }) (by decide) (by decide)⟩

/-- Counterexample to C6 as stated: with `maxConcurrent = 0` (non-positive)
and `batchSize = 1`, the call is not rejected — the lookup is invoked three
times (non-empty trace) and the run resolves with the full output. -/
theorem c6_counterexample :
    executeBatchedQuerySmart [1, 2, 3] (fun b => (Except.ok b : Except Nat (List Nat)))
        (fun _ => 1) (some { batchSize := some 1, maxConcurrent := some 0 })
      = some ([⟨0, 0, 1, [1]⟩, ⟨1, 1, 2, [2]⟩, ⟨2, 2, 3, [3]⟩], Except.ok [1, 2, 3]) :=
  rfl

/-- C6 amended: `executeBatchedQuerySmart` performs no validation of its
configuration.  With `maxConcurrent = 0` under `auto` it silently falls back
to sequential execution and resolves normally; with `batchSize = 0` and a
non-empty input the batching loop never terminates (modelled by `none`).  In
neither case does the call reject immediately. -/
theorem c6_amended_no_validation :
    (∀ (ids : List α) (g : List α → List β) (dur : Nat → Nat) (bs : Nat),
      0 < bs → bs < ids.length →
        ∃ invs, executeBatchedQuerySmart (ε := ε) ids (fun b => Except.ok (g b)) dur
            (some { batchSize := some bs, maxConcurrent := some 0 })
          = some (invs, Except.ok ((buildBatches bs ids).map g).flatten))
    ∧ (∀ (ids : List α) (f : List α → Except ε (List β)) (dur : Nat → Nat)
        (mc : Option Nat) (strat : Option Strategy), ids ≠ [] →
          executeBatchedQuerySmart ids f dur
            (some { batchSize := some 0, maxConcurrent := mc, strategy := strat })
          = none) := by
  constructor
  · intro ids g dur bs hbs hlen
    exact execute_ok_lookup ids g dur
      (some { batchSize := some bs, maxConcurrent := some 0 }) hbs
  · intro ids f dur mc strat hne
    cases ids with
    | nil => exact absurd rfl hne
    | cons a l =>
      have h0 : ¬ ((a :: l).length = 0) := by simp
      have h1 : ¬ ((a :: l).length ≤ effBatchSize (some (Options.mk (some 0) mc strat))) := by
        show ¬ ((a :: l).length ≤ 0)
        simp
      simp only [executeBatchedQuerySmart, if_neg h0, if_neg h1]
      rfl

/-- Witness for the amended C6: both conjuncts at concrete inputs —
`maxConcurrent = 0` resolving normally, and `batchSize = 0` diverging. -/
theorem c6_amended_witness :
    ((0 < 1 ∧ 1 < ([1, 2, 3] : List Nat).length) ∧
      ∃ invs, executeBatchedQuerySmart (ε := Nat) [1, 2, 3]
          (fun b => Except.ok ((fun x => x) b)) (fun _ => 1)
          (some { batchSize := some 1, maxConcurrent := some 0 })
        = some (invs, Except.ok ((buildBatches 1 [1, 2, 3]).map (fun x => x)).flatten))
    ∧ (([9] : List Nat) ≠ [] ∧
      executeBatchedQuerySmart [9] (fun b => (Except.ok b : Except Nat (List Nat)))
          (fun _ => 1)
          (some { batchSize := some 0, maxConcurrent := none, strategy := none })
        = none) :=
  ⟨⟨⟨by decide, by decide⟩,
      c6_amended_no_validation.1 [1, 2, 3] (fun x => x) (fun _ => 1) 1
        (by decide) (by decide)⟩,
    ⟨by decide,
      c6_amended_no_validation.2 [9] (fun b => Except.ok b) (fun _ => 1) none none
        (by decide)⟩⟩

/-- Counterexample to C2 as stated: with `batchSize = 1`, `maxConcurrent = 2`,
`strategy = auto` and three items (`B = 3 > 2`), the invocation schedule of
`executeBatchedQuerySmart` is not the chunked-parallel schedule: chunked
parallel dispatches chunks 0 and 1 concurrently at time 0, while the actual
run dispatches chunk 1 only at time 1, after chunk 0 settles. -/
theorem c2_counterexample :
    (executeBatchedQuerySmart [1, 2, 3] (fun b => (Except.ok b : Except Nat (List Nat)))
        (fun _ => 1) (some { batchSize := some 1, maxConcurrent := some 2 })).map Prod.fst
      ≠ (executeChunkedParallel (fun b => (Except.ok b : Except Nat (List Nat)))
          (fun _ => 1) (buildBatches 1 [1, 2, 3]) 2).map Prod.fst := by
  decide

/-- C2 amended: when the strategy is `auto` and the number of chunks exceeds
`maxConcurrent` (with positive batch size and an input larger than one batch),
`executeBatchedQuerySmart` behaves as `executeSequential`: chunks are invoked
strictly one at a time in definition order, each dispatched at the previous
chunk's settle time — not as chunked-parallel. -/
theorem c2_amended_auto_overflow_sequential (ids : List α)
    (f : List α → Except ε (List β)) (dur : Nat → Nat) (opts : Option Options)
    (hauto : effStrategy opts = Strategy.auto) (hb : 0 < effBatchSize opts)
    (hlen : effBatchSize opts < ids.length)
    (hover : effMaxConcurrent opts < (buildBatches (effBatchSize opts) ids).length) :
    executeBatchedQuerySmart ids f dur opts =
      some (executeSequential f dur (buildBatches (effBatchSize opts) ids)) :=
  execute_auto_overflow ids f dur opts hauto hb hlen hover

/-- Witness for the amended C2: three chunks, `maxConcurrent = 2`, `auto`. -/
theorem c2_amended_witness :
    (effStrategy (some { batchSize := some 1, maxConcurrent := some 2 }) = Strategy.auto ∧
      0 < effBatchSize (some { batchSize := some 1, maxConcurrent := some 2 }) ∧
      effBatchSize (some { batchSize := some 1, maxConcurrent := some 2 })
        < ([1, 2, 3] : List Nat).length ∧
      effMaxConcurrent (some { batchSize := some 1, maxConcurrent := some 2 })
        < (buildBatches (effBatchSize (some { batchSize := some 1, maxConcurrent := some 2 }))
            [1, 2, 3]).length) ∧
      executeBatchedQuerySmart [1, 2, 3] (fun b => (Except.ok b : Except Nat (List Nat)))
          (fun _ => 1) (some { batchSize := some 1, maxConcurrent := some 2 })
        = some (executeSequential (fun b => Except.ok b) (fun _ => 1)
            (buildBatches (effBatchSize (some { batchSize := some 1, maxConcurrent := some 2 }))
              [1, 2, 3])) :=
  ⟨⟨by decide, by decide, by decide, by decide⟩,
    c2_amended_auto_overflow_sequential [1, 2, 3] (fun b => Except.ok b) (fun _ => 1)
      (some { batchSize := some 1, maxConcurrent := some 2 })
      (by decide) (by decide) (by decide) (by decide)⟩

/-- C9: strategy resolution never yields `auto`, so the `default:` arm of the
strategy switch — the only caller of `executeChunkedParallel` — is
unreachable: past the fast paths, every run of `executeBatchedQuerySmart` is
an `executeParallel` run or an `executeSequential` run. -/
theorem c9_chunked_parallel_unreachable :
    (∀ (s : Strategy) (numBatches maxConcurrent : Nat),
      resolveStrategy s numBatches maxConcurrent = Strategy.parallel ∨
        resolveStrategy s numBatches maxConcurrent = Strategy.sequential)
    ∧ (∀ (ids : List α) (f : List α → Except ε (List β)) (dur : Nat → Nat)
        (opts : Option Options), 0 < effBatchSize opts → effBatchSize opts < ids.length →
          executeBatchedQuerySmart ids f dur opts
              = some (executeParallel f dur (buildBatches (effBatchSize opts) ids))
            ∨ executeBatchedQuerySmart ids f dur opts
              = some (executeSequential f dur (buildBatches (effBatchSize opts) ids))) := by
  constructor
  · exact resolveStrategy_cases
  · intro ids f dur opts hb hlen
    rw [execute_not_fast ids f dur opts hb hlen]
    rcases resolveStrategy_cases (effStrategy opts)
        (buildBatches (effBatchSize opts) ids).length (effMaxConcurrent opts)
      with h | h
    · left
      rw [h]
    · right
      rw [h]

/-- Witness for C9: a concrete multi-batch run under `auto` (which resolves to
`parallel` here since three batches fit under `maxConcurrent = 10`). -/
theorem c9_witness :
    (0 < effBatchSize (some { batchSize := some 1 }) ∧
      effBatchSize (some { batchSize := some 1 }) < ([1, 2, 3] : List Nat).length) ∧
      (executeBatchedQuerySmart [1, 2, 3] (fun b => (Except.ok b : Except Nat (List Nat)))
          (fun _ => 1) (some { batchSize := some 1 })
          = some (executeParallel (fun b => Except.ok b) (fun _ => 1)
              (buildBatches (effBatchSize (some { batchSize := some 1 })) [1, 2, 3]))
        ∨ executeBatchedQuerySmart [1, 2, 3] (fun b => (Except.ok b : Except Nat (List Nat)))
            (fun _ => 1) (some { batchSize := some 1 })
          = some (executeSequential (fun b => Except.ok b) (fun _ => 1)
              (buildBatches (effBatchSize (some { batchSize := some 1 })) [1, 2, 3]))) :=
  ⟨⟨by decide, by decide⟩,
    c9_chunked_parallel_unreachable.2 [1, 2, 3] (fun b => Except.ok b) (fun _ => 1)
      (some { batchSize := some 1 }) (by decide) (by decide)⟩

lemma seqGo_start_ge (f : List α → Except ε (List β)) (dur : Nat → Nat) :
    ∀ (l : List (List α)) (i0 t0 : Nat), ∀ inv ∈ (seqGo f dur i0 t0 l).1, t0 ≤ inv.start := by
  intro l
  induction l with
  | nil =>
    intro i0 t0 inv hmem
    simp [seqGo] at hmem
  | cons b rest ih =>
    intro i0 t0 inv hmem
    cases hfb : f b with
    | error e =>
      simp only [seqGo, hfb, List.mem_singleton] at hmem
      subst hmem
      exact Nat.le_refl _
    | ok out =>
      simp only [seqGo, hfb, List.mem_cons] at hmem
      rcases hmem with h | h
      · subst h
        exact Nat.le_refl _
      · have := ih (i0 + 1) (t0 + dur i0) inv h
        omega

lemma seqGo_inflight_le_one (f : List α → Except ε (List β)) (dur : Nat → Nat) :
    ∀ (l : List (List α)) (i0 t0 t : Nat), inFlightCount (seqGo f dur i0 t0 l).1 t ≤ 1 := by
  intro l
  induction l with
  | nil =>
    intro i0 t0 t
    simp [seqGo, inFlightCount]
  | cons b rest ih =>
    intro i0 t0 t
    cases hfb : f b with
    | error e =>
      simp only [seqGo, hfb, inFlightCount, List.countP_cons, List.countP_nil]
      split <;> omega
    | ok out =>
      simp only [seqGo, hfb, inFlightCount, List.countP_cons]
      rcases Nat.lt_or_ge t (t0 + dur i0) with hlt | hge
      · have hz : (seqGo f dur (i0 + 1) (t0 + dur i0) rest).1.countP
            (fun inv => decide (inv.start ≤ t ∧ t < inv.stop)) = 0 := by
          rw [List.countP_eq_zero]
          intro a ha
          have hge2 := seqGo_start_ge f dur rest (i0 + 1) (t0 + dur i0) a ha
          simp only [decide_eq_true_eq]
          intro hcon
          omega
        rw [hz]
        split <;> omega
      · have htail := ih (i0 + 1) (t0 + dur i0) t
        simp only [inFlightCount] at htail
        split
        next hcond =>
          simp only [decide_eq_true_eq] at hcond
          have h2 : t < t0 + dur i0 := hcond.2
          omega
        next => omega

/-- C4: under the `auto` strategy, whenever the number of chunks exceeds
`maxConcurrent` (taken positive, as the configuration declares), at no time
`t` are more than `maxConcurrent` invocations of the lookup in flight — the
run is sequential, so at most one is ever unresolved. -/
theorem c4_concurrency_ceiling (ids : List α) (f : List α → Except ε (List β))
    (dur : Nat → Nat) (opts : Option Options) (invs : List (Invocation α))
    (res : Except ε (List β)) (t : Nat)
    (hauto : effStrategy opts = Strategy.auto)
    (hm : 0 < effMaxConcurrent opts)
    (hover : effMaxConcurrent opts < (buildBatches (effBatchSize opts) ids).length)
    (hrun : executeBatchedQuerySmart ids f dur opts = some (invs, res)) :
    inFlightCount invs t ≤ effMaxConcurrent opts := by
  rcases Nat.eq_zero_or_pos (effBatchSize opts) with hb0 | hb
  · exfalso
    cases hids : ids with
    | nil =>
      rw [hids] at hover
      rw [show buildBatches (effBatchSize opts) ([] : List α) = []
        from buildBatchesGo_nil _ _] at hover
      simp at hover
    | cons a l =>
      rw [hids] at hrun
      have h0 : ¬ ((a :: l).length = 0) := by simp
      have h1 : ¬ ((a :: l).length ≤ effBatchSize opts) := by
        rw [hb0]
        simp
      simp only [executeBatchedQuerySmart, if_neg h0, if_neg h1, hb0] at hrun
      rw [show splitIntoBatches 0 (a :: l) = (none : Option (List (List α)))
        from rfl] at hrun
      exact Option.noConfusion hrun
  · have hlen : effBatchSize opts < ids.length := by
      by_contra hcon
      push_neg at hcon
      have := buildBatches_len_le_one (effBatchSize opts) ids hcon
      omega
    have hroute := execute_auto_overflow ids f dur opts hauto hb hlen hover
    rw [hroute] at hrun
    have hEq : executeSequential f dur (buildBatches (effBatchSize opts) ids)
        = (invs, res) := Option.some.inj hrun
    have hinvs : invs = (seqGo f dur 0 0 (buildBatches (effBatchSize opts) ids)).1 :=
      (congrArg Prod.fst hEq).symm
    rw [hinvs]
    exact Nat.le_trans (seqGo_inflight_le_one f dur _ 0 0 t) hm

/-- Witness for C4: `batchSize = 1`, `maxConcurrent = 1`, `auto`, three chunks,
checked at time 0 on the concrete sequential run. -/
theorem c4_witness :
    (effStrategy (some { batchSize := some 1, maxConcurrent := some 1 }) = Strategy.auto ∧
      0 < effMaxConcurrent (some { batchSize := some 1, maxConcurrent := some 1 }) ∧
      effMaxConcurrent (some { batchSize := some 1, maxConcurrent := some 1 })
        < (buildBatches (effBatchSize (some { batchSize := some 1, maxConcurrent := some 1 })) [1, 2, 3]).length) ∧
      inFlightCount [(⟨0, 0, 1, [1]⟩ : Invocation Nat), ⟨1, 1, 2, [2]⟩, ⟨2, 2, 3, [3]⟩] 0
        ≤ effMaxConcurrent (some { batchSize := some 1, maxConcurrent := some 1 }) :=
  ⟨⟨by decide, by decide, by decide⟩,
    c4_concurrency_ceiling [1, 2, 3] (fun b => (Except.ok b : Except Nat (List Nat)))
      (fun _ => 1) (some { batchSize := some 1, maxConcurrent := some 1 })
      [⟨0, 0, 1, [1]⟩, ⟨1, 1, 2, [2]⟩, ⟨2, 2, 3, [3]⟩] (Except.ok [1, 2, 3]) 0
      (by decide) (by decide) (by decide) rfl⟩

lemma isOk_ok (x : List β) : (Except.ok x : Except ε (List β)).isOk = true := rfl

lemma isOk_error (e : ε) : (Except.error e : Except ε (List β)).isOk = false := rfl

lemma parallelInvs_arg_mem (dur : Nat → Nat) :
    ∀ (l : List (List α)) (i0 t0 : Nat), ∀ inv ∈ parallelInvs dur i0 t0 l, inv.arg ∈ l := by
  intro l
  induction l with
  | nil =>
    intro i0 t0 inv hm
    simp [parallelInvs] at hm
  | cons b rest ih =>
    intro i0 t0 inv hm
    simp only [parallelInvs, List.mem_cons] at hm
    rcases hm with h | h
    · subst h
      exact List.mem_cons_self b rest
    · exact List.mem_cons_of_mem b (ih (i0 + 1) t0 inv h)

lemma mem_parallelInvs_of_mem (dur : Nat → Nat) :
    ∀ (l : List (List α)) (i0 t0 : Nat) (b : List α), b ∈ l →
      ∃ inv ∈ parallelInvs dur i0 t0 l, inv.arg = b := by
  intro l
  induction l with
  | nil =>
    intro i0 t0 b hb
    simp at hb
  | cons c rest ih =>
    intro i0 t0 b hb
    rcases List.mem_cons.mp hb with h | h
    · exact ⟨⟨i0, t0, t0 + dur i0, c⟩, List.mem_cons_self _ _, h.symm⟩
    · obtain ⟨inv, hm, ha⟩ := ih (i0 + 1) t0 b h
      exact ⟨inv, List.mem_cons_of_mem _ hm, ha⟩

lemma rejections_ne_nil_of (f : List α → Except ε (List β)) :
    ∀ (l : List (List α)) (i0 : Nat) (b : List α), b ∈ l →
      ∀ e, f b = Except.error e → rejections f i0 l ≠ [] := by
  intro l
  induction l with
  | nil =>
    intro i0 b hb
    simp at hb
  | cons c rest ih =>
    intro i0 b hb e hfb
    rcases List.mem_cons.mp hb with h | h
    · subst h
      simp only [rejections, hfb]
      exact List.cons_ne_nil _ _
    · cases hfc : f c with
      | error e2 =>
        simp only [rejections, hfc]
        exact List.cons_ne_nil _ _
      | ok out =>
        simp only [rejections, hfc]
        exact ih (i0 + 1) b h e hfb

lemma mem_rejections (f : List α → Except ε (List β)) :
    ∀ (l : List (List α)) (i0 : Nat) (r : Nat × ε), r ∈ rejections f i0 l →
      ∃ b ∈ l, f b = Except.error r.2 := by
  intro l
  induction l with
  | nil =>
    intro i0 r hr
    simp [rejections] at hr
  | cons c rest ih =>
    intro i0 r hr
    cases hfc : f c with
    | error e =>
      simp only [rejections, hfc, List.mem_cons] at hr
      rcases hr with h | h
      · subst h
        exact ⟨c, List.mem_cons_self _ _, hfc⟩
      · obtain ⟨b, hb, hfb⟩ := ih (i0 + 1) r h
        exact ⟨b, List.mem_cons_of_mem _ hb, hfb⟩
    | ok out =>
      simp only [rejections, hfc] at hr
      obtain ⟨b, hb, hfb⟩ := ih (i0 + 1) r hr
      exact ⟨b, List.mem_cons_of_mem _ hb, hfb⟩

lemma earliestRejection_cons (dur : Nat → Nat) (a : Nat × ε) (rest : List (Nat × ε)) :
    earliestRejection dur (a :: rest) =
      match earliestRejection dur rest with
      | none => some a
      | some r2 => if dur r2.1 < dur a.1 then some r2 else some a :=
  rfl

lemma earliestRejection_mem (dur : Nat → Nat) :
    ∀ (rs : List (Nat × ε)), rs ≠ [] →
      ∃ r, earliestRejection dur rs = some r ∧ r ∈ rs := by
  intro rs
  induction rs with
  | nil =>
    intro h
    exact absurd rfl h
  | cons a rest ih =>
    intro _
    cases h2 : earliestRejection dur rest with
    | none =>
      refine ⟨a, ?_, List.mem_cons_self a rest⟩
      rw [earliestRejection_cons, h2]
    | some r2 =>
      have hrm : r2 ∈ rest := by
        cases hrest : rest with
        | nil =>
          rw [hrest] at h2
          exact Option.noConfusion h2
        | cons c rest2 =>
          obtain ⟨r3, hr3, hm3⟩ := ih (by rw [hrest]; exact List.cons_ne_nil _ _)
          rw [h2] at hr3
          have heq : r2 = r3 := Option.some.inj hr3
          rw [heq, ← hrest]
          exact hm3
      by_cases hc : dur r2.1 < dur a.1
      · refine ⟨r2, ?_, List.mem_cons_of_mem a hrm⟩
        rw [earliestRejection_cons, h2]
        show (if dur r2.1 < dur a.1 then some r2 else some a) = some r2
        rw [if_pos hc]
      · refine ⟨a, ?_, List.mem_cons_self a rest⟩
        rw [earliestRejection_cons, h2]
        show (if dur r2.1 < dur a.1 then some r2 else some a) = some a
        rw [if_neg hc]

lemma promiseAllStep_part1 (f : List α → Except ε (List β)) (dur : Nat → Nat)
    (l : List (List α)) (i0 t0 : Nat)
    (h : ∃ inv ∈ (promiseAllStep f dur i0 t0 l).1, (f inv.arg).isOk = false) :
    ∃ e, (promiseAllStep f dur i0 t0 l).2 = Except.error e ∧
      ∃ inv ∈ (promiseAllStep f dur i0 t0 l).1, f inv.arg = Except.error e := by
  obtain ⟨inv, hinv, hbad⟩ := h
  have harg : inv.arg ∈ l := parallelInvs_arg_mem dur l i0 t0 inv hinv
  obtain ⟨e0, he0⟩ : ∃ e, f inv.arg = Except.error e := by
    cases hf : f inv.arg with
    | error e => exact ⟨e, rfl⟩
    | ok out =>
      rw [hf, isOk_ok] at hbad
      exact Bool.noConfusion hbad
  have hne : rejections f i0 l ≠ [] := rejections_ne_nil_of f l i0 inv.arg harg e0 he0
  obtain ⟨r, hr, hrmem⟩ := earliestRejection_mem dur _ hne
  refine ⟨r.2, ?_, ?_⟩
  · show (match earliestRejection dur (rejections f i0 l) with
      | some r => Except.error r.2
      | none => collectOks f l) = Except.error r.2
    rw [hr]
  · obtain ⟨b, hb, hfb⟩ := mem_rejections f l i0 r hrmem
    obtain ⟨inv2, hinv2, harg2⟩ := mem_parallelInvs_of_mem dur l i0 t0 b hb
    refine ⟨inv2, hinv2, ?_⟩
    rw [harg2]
    exact hfb

lemma seqGo_part1 (f : List α → Except ε (List β)) (dur : Nat → Nat) :
    ∀ (l : List (List α)) (i0 t0 : Nat),
      (∃ inv ∈ (seqGo f dur i0 t0 l).1, (f inv.arg).isOk = false) →
      ∃ e, (seqGo f dur i0 t0 l).2 = Except.error e ∧
        ∃ inv ∈ (seqGo f dur i0 t0 l).1, f inv.arg = Except.error e := by
  intro l
  induction l with
  | nil =>
    rintro i0 t0 ⟨inv, hm, _⟩
    simp [seqGo] at hm
  | cons b rest ih =>
    rintro i0 t0 ⟨inv, hm, hbad⟩
    cases hfb : f b with
    | error e =>
      refine ⟨e, ?_, ⟨⟨i0, t0, t0 + dur i0, b⟩, ?_, hfb⟩⟩
      · show (seqGo f dur i0 t0 (b :: rest)).2 = Except.error e
        simp only [seqGo, hfb]
      · simp only [seqGo, hfb, List.mem_singleton]
    | ok out =>
      simp only [seqGo, hfb, List.mem_cons] at hm
      rcases hm with h | h
      · subst h
        rw [show f (⟨i0, t0, t0 + dur i0, b⟩ : Invocation α).arg = f b from rfl,
          hfb, isOk_ok] at hbad
        exact Bool.noConfusion hbad
      · obtain ⟨e, h2, inv2, hmem2, hfe⟩ := ih (i0 + 1) (t0 + dur i0) ⟨inv, h, hbad⟩
        refine ⟨e, ?_, ⟨inv2, ?_, hfe⟩⟩
        · show (seqGo f dur i0 t0 (b :: rest)).2 = Except.error e
          simp only [seqGo, hfb, h2]
        · simp only [seqGo, hfb, List.mem_cons]
          right
          exact hmem2

lemma seqGo_part2 (f : List α → Except ε (List β)) (dur : Nat → Nat) :
    ∀ (l : List (List α)) (i : Nat) (hi : i < l.length) (i0 t0 : Nat),
      (f (l.get ⟨i, hi⟩)).isOk = false →
      (∀ j : Fin l.length, (j : Nat) < i → (f (l.get j)).isOk = true) →
      ∀ inv ∈ (seqGo f dur i0 t0 l).1, inv.index ≤ i0 + i := by
  intro l
  induction l with
  | nil =>
    intro i hi
    exact absurd hi (Nat.not_lt_zero i)
  | cons b rest ih =>
    intro i hi i0 t0 hfail hpre inv hm
    cases i with
    | zero =>
      have hfb : (f b).isOk = false := hfail
      cases hfb2 : f b with
      | ok out =>
        rw [hfb2, isOk_ok] at hfb
        exact Bool.noConfusion hfb
      | error e =>
        simp only [seqGo, hfb2, List.mem_singleton] at hm
        subst hm
        simp
    | succ k =>
      have h0 : (f b).isOk = true := hpre ⟨0, Nat.succ_pos rest.length⟩ (Nat.succ_pos k)
      cases hfb2 : f b with
      | error e =>
        rw [hfb2, isOk_error] at h0
        exact Bool.noConfusion h0
      | ok out =>
        simp only [seqGo, hfb2, List.mem_cons] at hm
        rcases hm with h | h
        · subst h
          show i0 ≤ i0 + (k + 1)
          omega
        · have hi2 : k < rest.length := Nat.lt_of_succ_lt_succ hi
          have hfail2 : (f (rest.get ⟨k, hi2⟩)).isOk = false := hfail
          have hpre2 : ∀ j : Fin rest.length, (j : Nat) < k → (f (rest.get j)).isOk = true := by
            intro j hj
            have hr := hpre ⟨j.1 + 1, Nat.succ_lt_succ j.2⟩ (Nat.succ_lt_succ hj)
            exact hr
          have hidx := ih k hi2 (i0 + 1) (t0 + dur i0) hfail2 hpre2 inv h
          omega

/-- C5: if any invoked chunk's lookup rejects, the run's result is a rejection
carrying an error produced by a rejecting invocation (so no output value is
returned); and under the explicitly `sequential` strategy, if the lookup
rejects on chunk `i` (all earlier chunks succeeding), no chunk after `i` is
ever invoked. -/
theorem c5_fail_fast (ids : List α) (f : List α → Except ε (List β)) (dur : Nat → Nat)
    (opts : Option Options) (invs : List (Invocation α)) (res : Except ε (List β))
    (hrun : executeBatchedQuerySmart ids f dur opts = some (invs, res)) :
    ((∃ inv ∈ invs, (f inv.arg).isOk = false) →
      ∃ e, res = Except.error e ∧ ∃ inv ∈ invs, f inv.arg = Except.error e)
    ∧ (effStrategy opts = Strategy.sequential →
      ∀ (i : Nat) (hi : i < (buildBatches (effBatchSize opts) ids).length),
        (f ((buildBatches (effBatchSize opts) ids).get ⟨i, hi⟩)).isOk = false →
        (∀ j : Fin (buildBatches (effBatchSize opts) ids).length, (j : Nat) < i →
          (f ((buildBatches (effBatchSize opts) ids).get j)).isOk = true) →
        ∀ inv ∈ invs, inv.index ≤ i) := by
  cases hids0 : ids with
  | nil =>
    subst hids0
    have hpair : (([] : List (Invocation α)), (Except.ok [] : Except ε (List β)))
        = (invs, res) := Option.some.inj hrun
    have hinvs : invs = [] := (congrArg Prod.fst hpair).symm
    constructor
    · rintro ⟨inv, hm, _⟩
      rw [hinvs] at hm
      simp at hm
    · intro _ i hi
      rw [show buildBatches (effBatchSize opts) ([] : List α) = []
        from buildBatchesGo_nil _ _] at hi
      exact absurd hi (Nat.not_lt_zero i)
  | cons a l =>
    subst hids0
    rcases Nat.eq_zero_or_pos (effBatchSize opts) with hb0 | hb
    · exfalso
      have h0 : ¬ ((a :: l).length = 0) := by simp
      have h1 : ¬ ((a :: l).length ≤ effBatchSize opts) := by
        rw [hb0]
        simp
      simp only [executeBatchedQuerySmart, if_neg h0, if_neg h1, hb0] at hrun
      rw [show splitIntoBatches 0 (a :: l) = (none : Option (List (List α)))
        from rfl] at hrun
      exact Option.noConfusion hrun
    · by_cases hfast : (a :: l).length ≤ effBatchSize opts
      · rw [execute_fast (a :: l) f dur opts (List.cons_ne_nil a l) hfast] at hrun
        have hpair : (([⟨0, 0, dur 0, a :: l⟩] : List (Invocation α)), f (a :: l))
            = (invs, res) := Option.some.inj hrun
        have hinvs : invs = [⟨0, 0, dur 0, a :: l⟩] := (congrArg Prod.fst hpair).symm
        have hres : res = f (a :: l) := (congrArg Prod.snd hpair).symm
        have hbatches : buildBatches (effBatchSize opts) (a :: l) = [a :: l] :=
          buildBatches_singleton _ _ (List.cons_ne_nil a l) hfast
        constructor
        · rintro ⟨inv, hm, hbad⟩
          rw [hinvs, List.mem_singleton] at hm
          subst hm
          obtain ⟨e, he⟩ : ∃ e, f (a :: l) = Except.error e := by
            cases hf : f (a :: l) with
            | error e => exact ⟨e, rfl⟩
            | ok out =>
              rw [show f (⟨0, 0, dur 0, a :: l⟩ : Invocation α).arg = f (a :: l)
                from rfl, hf, isOk_ok] at hbad
              exact Bool.noConfusion hbad
          refine ⟨e, by rw [hres, he], ⟨⟨0, 0, dur 0, a :: l⟩, ?_, he⟩⟩
          rw [hinvs]
          exact List.mem_singleton.mpr rfl
        · intro _ i hi hfail hpre inv hm
          rw [hinvs, List.mem_singleton] at hm
          subst hm
          show 0 ≤ i
          exact Nat.zero_le i
      · push_neg at hfast
        rw [execute_not_fast (a :: l) f dur opts hb hfast] at hrun
        rcases resolveStrategy_cases (effStrategy opts)
            (buildBatches (effBatchSize opts) (a :: l)).length (effMaxConcurrent opts)
          with hsel | hsel
        · rw [hsel] at hrun
          have hpair : executeParallel f dur (buildBatches (effBatchSize opts) (a :: l))
              = (invs, res) := Option.some.inj hrun
          have hinvs : invs
              = (promiseAllStep f dur 0 0 (buildBatches (effBatchSize opts) (a :: l))).1 :=
            (congrArg Prod.fst hpair).symm
          have hres : res
              = (promiseAllStep f dur 0 0 (buildBatches (effBatchSize opts) (a :: l))).2 :=
            (congrArg Prod.snd hpair).symm
          constructor
          · intro hex
            rw [hinvs] at hex
            obtain ⟨e, h2, inv2, hm2, hf2⟩ :=
              promiseAllStep_part1 f dur (buildBatches (effBatchSize opts) (a :: l)) 0 0 hex
            refine ⟨e, by rw [hres]; exact h2, ⟨inv2, ?_, hf2⟩⟩
            rw [hinvs]
            exact hm2
          · intro hseq
            rw [hseq] at hsel
            simp [resolveStrategy] at hsel
        · rw [hsel] at hrun
          have hpair : executeSequential f dur (buildBatches (effBatchSize opts) (a :: l))
              = (invs, res) := Option.some.inj hrun
          have hinvs : invs
              = (seqGo f dur 0 0 (buildBatches (effBatchSize opts) (a :: l))).1 :=
            (congrArg Prod.fst hpair).symm
          have hres : res
              = (seqGo f dur 0 0 (buildBatches (effBatchSize opts) (a :: l))).2 :=
            (congrArg Prod.snd hpair).symm
          constructor
          · intro hex
            rw [hinvs] at hex
            obtain ⟨e, h2, inv2, hm2, hf2⟩ :=
              seqGo_part1 f dur (buildBatches (effBatchSize opts) (a :: l)) 0 0 hex
            refine ⟨e, by rw [hres]; exact h2, ⟨inv2, ?_, hf2⟩⟩
            rw [hinvs]
            exact hm2
          · intro _ i hi hfail hpre inv hm
            rw [hinvs] at hm
            have hidx := seqGo_part2 f dur (buildBatches (effBatchSize opts) (a :: l))
              i hi 0 0 hfail hpre inv hm
            omega

/-- Witness for C5: sequential run over five one-element chunks whose lookup
rejects on chunk index 2 — the result is that rejection and chunks 3 and 4 are
never invoked (every recorded index is at most 2). -/
theorem c5_witness :
    (∃ e, (Except.error 7 : Except Nat (List Nat)) = Except.error e ∧
      ∃ inv ∈ [(⟨0, 0, 1, [1]⟩ : Invocation Nat), ⟨1, 1, 2, [2]⟩, ⟨2, 2, 3, [3]⟩],
        (fun b => if 3 ∈ b then (Except.error 7 : Except Nat (List Nat)) else Except.ok b)
          inv.arg = Except.error e)
    ∧ (∀ inv ∈ [(⟨0, 0, 1, [1]⟩ : Invocation Nat), ⟨1, 1, 2, [2]⟩, ⟨2, 2, 3, [3]⟩],
        inv.index ≤ 2) :=
  ⟨(c5_fail_fast [1, 2, 3, 4, 5]
      (fun b => if 3 ∈ b then (Except.error 7 : Except Nat (List Nat)) else Except.ok b)
      (fun _ => 1) (some { batchSize := some 1, strategy := some Strategy.sequential })
      [⟨0, 0, 1, [1]⟩, ⟨1, 1, 2, [2]⟩, ⟨2, 2, 3, [3]⟩] (Except.error 7) rfl).1
      ⟨⟨2, 2, 3, [3]⟩, by decide, by decide⟩,
    (c5_fail_fast [1, 2, 3, 4, 5]
      (fun b => if 3 ∈ b then (Except.error 7 : Except Nat (List Nat)) else Except.ok b)
      (fun _ => 1) (some { batchSize := some 1, strategy := some Strategy.sequential })
      [⟨0, 0, 1, [1]⟩, ⟨1, 1, 2, [2]⟩, ⟨2, 2, 3, [3]⟩] (Except.error 7) rfl).2
      rfl 2 (by decide) (by decide) (by decide)⟩

end BatchQuery
